import Mathlib

/-!
Shallow embedding of the indexed MCAP reader core (godot-mcap):
the merge iterator (src/reader/iterator.rs), the indexed query engine
(src/reader/mcap_reader.rs), the message filter (src/reader/filter.rs)
and the replay scheduler (src/reader/replay.rs).

Modelling conventions:
* A decoded message is `Message` (channel id, log_time in usec, payload tag).
  Byte-level decoding, compression and CRCs are the external codec and are
  out of scope; a chunk is modelled by its decoded message list in storage
  order together with its chunk-index time range.
* `u64`/`i64` timestamps are `Nat`/`Int`; all values handled by the claims
  stay far below `2^63`, so no wrap-around is modelled.
* Rust `slice::binary_search_by` is modelled exactly as the current branchless
  standard-library implementation (no early equal-exit; on duplicate keys it
  lands on the last matching index).
* `Vec::sort_by_key` is a stable sort; it is modelled with the stable
  `List.insertionSort` (stable sorts agree on their output).
* Summary parsing (`Summary::read`) is cached once; the parsed content is the
  `log` field and `summaryLoaded` records whether the cache is populated
  (parse failure handling of malformed bytes is out of scope).
-/

namespace MCAP

/-- Decoded message: channel id, log_time (usec), and a payload tag that
stands for the sequence/payload data so that distinct records stay distinct. -/
structure Message where
  ch : Nat
  log_time : Nat
  payload : Nat
  deriving Repr, DecidableEq

/-- Chunk index entry together with the chunk's decoded messages in storage
order: `[startTime, endTime]` is the chunk index time range. -/
structure Chunk where
  startTime : Nat
  endTime : Nat
  msgs : List Message
  deriving Repr, DecidableEq

abbrev Log := List Chunk

/-- Ordering of messages by log_time, the key of the per-chunk sort. -/
def msgLE (a b : Message) : Prop := a.log_time ≤ b.log_time

instance : DecidableRel msgLE := fun a b => Nat.decLe a.log_time b.log_time

instance : IsTotal Message msgLE := ⟨fun a b => Nat.le_total a.log_time b.log_time⟩

instance : IsTrans Message msgLE := ⟨fun _ _ _ h1 h2 => Nat.le_trans h1 h2⟩

/-- Channel-filter test of `MsgFilter.matches_ch` for the single-channel
iterator filter (`channels: None` accepts all). -/
def chMatch (fc : Option Nat) (m : Message) : Bool :=
  match fc with
  | some cid => m.ch == cid
  | none => true

/-- Per-chunk buffered batch of `prepare_next_chunk`: stream the chunk,
keep the messages passing the channel filter, sort stably by log_time. -/
def chunkBatch (fc : Option Nat) (c : Chunk) : List Message :=
  List.insertionSort msgLE (c.msgs.filter (chMatch fc))

/-- Concatenation of the filtered sorted batches of a chunk list. -/
def flatBatches (fc : Option Nat) (cs : List Chunk) : List Message :=
  (cs.map (chunkBatch fc)).flatten

/-- State of `MCAPMessageIterator` (iterator.rs lines 46-58). `log` is the
summary's chunk-index list as parsed from the shared buffer;
`summaryLoaded` mirrors whether `self.summary` is populated. -/
structure IterState where
  log : Log
  filterCh : Option Nat
  summaryLoaded : Bool
  index : Nat
  peek : Option Message
  chunk_i : Nat
  chunk_msgs : List Message
  chunk_pos : Nat
  deriving Repr, DecidableEq

/-- Iterator as constructed by `new_from_reader`. -/
def freshIter (log : Log) (fc : Option Nat) : IterState :=
  { log := log, filterCh := fc, summaryLoaded := false, index := 0,
    peek := none, chunk_i := 0, chunk_msgs := [], chunk_pos := 0 }

/-- Model of `ensure_summary`: load and cache the summary (parsing the
well-formed buffer always succeeds and yields `log`). -/
def ensureSummary (s : IterState) : IterState := { s with summaryLoaded := true }

/-- Scan of `prepare_next_chunk` over the remaining chunks: skip chunks whose
filtered batch is empty; on success return how many chunks were skipped
together with the nonempty sorted batch. -/
def prepareFromList (fc : Option Nat) : List Chunk → Option (Nat × List Message)
  | [] => none
  | c :: rest =>
    let b := chunkBatch fc c
    if b.isEmpty then (prepareFromList fc rest).map (fun p => (p.1 + 1, p.2))
    else some (0, b)

/-- Whether `prepare_next_chunk` succeeds when started at chunk `start`. -/
def prepOk (s : IterState) (start : Nat) : Bool :=
  (prepareFromList s.filterCh (s.log.drop start)).isSome

/-- State effect of `prepare_next_chunk` started at chunk index `start`:
on success `chunk_i` is the found chunk, `chunk_msgs` its batch, `chunk_pos`
is 0; on failure the loop has run `chunk_i` to the end (clearing the buffer)
unless it never entered the loop body. -/
def prepState (s : IterState) (start : Nat) : IterState :=
  match prepareFromList s.filterCh (s.log.drop start) with
  | some p => { s with chunk_i := start + p.1, chunk_msgs := p.2, chunk_pos := 0 }
  | none =>
    if start < s.log.length then
      { s with chunk_i := s.log.length, chunk_msgs := [], chunk_pos := 0 }
    else
      { s with chunk_i := start }

/-- Model of `next_message_internal` (iterator.rs lines 129-153). -/
def next_message_internal (s0 : IterState) : Option Message × IterState :=
  let s := ensureSummary s0
  if s.chunk_msgs.isEmpty then
    if prepOk s s.chunk_i then
      let s1 := prepState s s.chunk_i
      (s1.chunk_msgs.head?, { s1 with chunk_pos := 1 })
    else (none, prepState s s.chunk_i)
  else if s.chunk_msgs.length ≤ s.chunk_pos then
    if prepOk s (s.chunk_i + 1) then
      let s1 := prepState s (s.chunk_i + 1)
      (s1.chunk_msgs.head?, { s1 with chunk_pos := 1 })
    else (none, prepState s (s.chunk_i + 1))
  else
    (s.chunk_msgs[s.chunk_pos]?, { s with chunk_pos := s.chunk_pos + 1 })

/-- Fill the peeked slot from `next_message_internal` when it is empty
(the shared prelude of `has_next_message` / `get_next_message` /
`peek_message`). -/
def fillPeek (s : IterState) : IterState :=
  match s.peek with
  | some _ => s
  | none =>
    let r := next_message_internal s
    { r.2 with peek := r.1 }

/-- Model of `has_next_message`. -/
def has_next_message (s : IterState) : Bool × IterState :=
  let s1 := fillPeek s
  (s1.peek.isSome, s1)

/-- Model of `get_next_message`. -/
def get_next_message (s : IterState) : Option Message × IterState :=
  let s1 := fillPeek s
  match s1.peek with
  | some m => (some m, { s1 with peek := none, index := s1.index + 1 })
  | none => (none, s1)

/-- Model of `peek_message`. -/
def peek_message (s : IterState) : Option Message × IterState :=
  let s1 := fillPeek s
  (s1.peek, s1)

/-- Repeatedly call `get_next_message`, collecting the yielded messages
(`fuel` bounds the number of calls). -/
def drainN : Nat → IterState → List Message
  | 0, _ => []
  | n + 1, s =>
    match get_next_message s with
    | (none, _) => []
    | (some m, s1) => m :: drainN n s1

/-- The messages the buffered-chunk machinery still holds, ignoring the
peeked slot: the rest of the current batch plus the batches of the chunks
not yet visited. -/
def tailList (s : IterState) : List Message :=
  s.chunk_msgs.drop s.chunk_pos ++
    flatBatches s.filterCh
      (s.log.drop (if s.chunk_msgs.isEmpty then s.chunk_i else s.chunk_i + 1))

/-- The observable sequence of messages the iterator will still yield. -/
def futureList (s : IterState) : List Message :=
  s.peek.toList ++ tailList s

/-! Rust `slice::binary_search_by` on a list of keys, modelled exactly as the
branchless standard-library implementation: a `base`/`size` loop without an
early equal-exit, then one final comparison.  The loop variables decrease by
`size / 2` each step, so `size` itself is enough fuel. -/

/-- Main loop of `slice::binary_search_by` (`while size > 1`). -/
def rbsGo (xs : List Nat) (t : Nat) : Nat → Nat → Nat → Nat
  | 0, base, _ => base
  | fuel + 1, base, size =>
    if 1 < size then
      let half := size / 2
      let mid := base + half
      rbsGo xs t fuel (if t < xs.getD mid 0 then base else mid) (size - half)
    else base

/-- Model of `slice::binary_search_by` comparing keys with `t`:
`Sum.inl i` is `Ok(i)`, `Sum.inr i` is `Err(i)`. -/
def rustBinSearch (xs : List Nat) (t : Nat) : Sum Nat Nat :=
  if xs.length = 0 then Sum.inr 0
  else
    let base := rbsGo xs t xs.length 0 xs.length
    if xs.getD base 0 = t then Sum.inl base
    else Sum.inr (base + (if xs.getD base 0 < t then 1 else 0))

/-- The `Ok(i) => i, Err(i) => i` collapse used by the seek helpers. -/
def rbsIdx (xs : List Nat) (t : Nat) : Nat :=
  match rustBinSearch xs t with
  | Sum.inl i => i
  | Sum.inr i => i

/-! Seek helpers of `MCAPMessageIterator`. -/

/-- Model of `reset_iteration_state`. -/
def resetIteration (s : IterState) : IterState :=
  { s with index := 0, peek := none, chunk_i := 0, chunk_msgs := [], chunk_pos := 0 }

/-- Model of `for_channel` (channel ids are `i32` cast to `u16`). -/
def for_channel (s : IterState) (channel_id : Int) : IterState :=
  resetIteration { s with filterCh := some ((channel_id % 65536).toNat) }

/-- Model of `load_and_seek_at_or_after` (iterator.rs lines 156-177):
load the chunk at `ci`, binary-search the position of the first buffered
message reported by Rust `binary_search_by_key` for `t`, else advance to the
next non-empty chunk. -/
def load_and_seek_at_or_after (s0 : IterState) (ci t : Nat) : Bool × IterState :=
  let s := { resetIteration s0 with chunk_i := ci }
  if prepOk s ci then
    let s1 := prepState s ci
    let pos := rbsIdx (s1.chunk_msgs.map Message.log_time) t
    if pos < s1.chunk_msgs.length then (true, { s1 with chunk_pos := pos })
    else if prepOk s1 (s1.chunk_i + 1) then
      let s2 := prepState s1 (s1.chunk_i + 1)
      (!s2.chunk_msgs.isEmpty, s2)
    else (false, prepState s1 (s1.chunk_i + 1))
  else (false, prepState s ci)

/-- Index of the first chunk whose `message_end_time` is at least `t`. -/
def findChunkEndGe (t : Nat) : List Chunk → Option Nat
  | [] => none
  | c :: rest =>
    if t ≤ c.endTime then some 0
    else (findChunkEndGe t rest).map (· + 1)

/-- Model of `seek_to_time` (iterator.rs lines 263-290). -/
def seek_to_time (s0 : IterState) (log_time_usec : Int) : Bool × IterState :=
  let s := ensureSummary s0
  let t : Nat := if log_time_usec < 0 then 0 else log_time_usec.toNat
  match findChunkEndGe t s.log with
  | none => (false, s)
  | some ci => load_and_seek_at_or_after s ci t

/-! Message-index access: per chunk and channel, the `(log_time, offset)`
entries of the message-index block, in the storage order of that channel's
messages (the MCAP writer emits one entry per message of the channel). -/

/-- The chunk's messages on one channel, in storage order. -/
def chunkMsgsOn (c : Chunk) (ch : Nat) : List Message :=
  c.msgs.filter (fun m => m.ch == ch)

/-- The log_time keys of the message-index entries of channel `ch` in
chunk `c`. -/
def chunkEntries (c : Chunk) (ch : Nat) : List Nat :=
  (chunkMsgsOn c ch).map Message.log_time

/-- The channel ids that own a message-index block in chunk `c`. -/
def chunkChannels (c : Chunk) : List Nat :=
  (c.msgs.map Message.ch).dedup

/-- Chunk scan of `get_message_at_time` (iterator.rs lines 385-413): skip
chunks whose index range does not contain `t`; inside a covering chunk,
binary-search the channel's entries for exactly `t` and decode the message
at the found entry (`seek_message`). -/
def gmatCore (ch t : Nat) : List Chunk → Option Message
  | [] => none
  | c :: rest =>
    if t < c.startTime ∨ c.endTime < t then gmatCore ch t rest
    else
      match rustBinSearch (chunkEntries c ch) t with
      | Sum.inl pos => (chunkMsgsOn c ch)[pos]?
      | Sum.inr _ => gmatCore ch t rest

/-- Model of `get_message_at_time` (iterator.rs lines 367-414). -/
def get_message_at_time (s0 : IterState) (channel_id log_time_usec : Int) :
    Option Message × IterState :=
  let s := ensureSummary s0
  if channel_id < 0 then (none, s)
  else
    let t : Nat := if log_time_usec < 0 then 0 else log_time_usec.toNat
    (gmatCore channel_id.toNat t s.log, s)

/-! Indexed query engine of `MCAPReader` over a log with a Summary. -/

/-- Model of `messages_in_time_range` (mcap_reader.rs lines 418-446): for
each chunk passing `chunk_might_match`, stream it and keep the messages in
`[start, end]`, concatenated in chunk order. -/
def messages_in_time_range (log : Log) (start_usec end_usec : Int) :
    List Message :=
  if end_usec < start_usec then []
  else
    let start : Nat := if start_usec < 0 then 0 else start_usec.toNat
    let e : Nat := if end_usec < 0 then 0 else end_usec.toNat
    log.flatMap (fun c =>
      if c.endTime < start ∨ e < c.startTime then []
      else c.msgs.filter (fun m => start ≤ m.log_time ∧ m.log_time ≤ e))

/-- The per-channel term of `message_count_in_range`: two Rust binary
searches over the sorted entry keys. -/
def countEntriesInRange (entries : List Nat) (start e : Nat) : Nat :=
  if entries.isEmpty then 0
  else
    let lo :=
      match rustBinSearch entries start with
      | Sum.inl i => i
      | Sum.inr i => i
    let hi :=
      match rustBinSearch entries e with
      | Sum.inl i => i + 1
      | Sum.inr i => i
    if lo < hi then hi - lo else 0

/-- Model of `message_count_in_range` (mcap_reader.rs lines 749-799):
walk chunk indexes, and per channel count index entries between the range
bounds found by binary search, without decoding messages. -/
def message_count_in_range (log : Log) (start_usec end_usec : Int) : Nat :=
  if end_usec < start_usec then 0
  else
    let start : Nat := if start_usec < 0 then 0 else start_usec.toNat
    let e : Nat := if end_usec < 0 then 0 else end_usec.toNat
    (log.map (fun c =>
      if e < c.startTime ∨ c.endTime < start then 0
      else ((chunkChannels c).map (fun ch =>
        countEntriesInRange (chunkEntries c ch) start e)).sum)).sum

/-! Reader-level error policy (mcap_reader.rs).  The summary section parsed
from the buffer is `parsed` (`Summary::read` returning `Ok(None)` models a
file without a summary section); `summary` is the cached copy and
`lastError` the string behind `get_last_error`. -/

/-- Summary content as the reader uses it: channel table (id, topic),
optional stats message count, and the chunk indexes. -/
structure SummaryData where
  channels : List (Nat × String)
  statsCount : Option Nat
  chunks : Log
  deriving Repr, DecidableEq

/-- State of `MCAPReader` relevant to the summary error policy. -/
structure ReaderState where
  parsed : Option SummaryData
  summary : Option SummaryData
  lastError : String
  deriving Repr, DecidableEq

/-- A reader freshly opened on bytes whose parse result is `p`. -/
def openReader (p : Option SummaryData) : ReaderState :=
  { parsed := p, summary := p, lastError := "" }

/-- Model of `MCAPReader::ensure_summary` (lines 908-923): populate the
cache from the parse result; with well-formed bytes `Summary::read`
returns `Ok`, so this never takes the error branch. -/
def readerEnsureSummary (r : ReaderState) : ReaderState :=
  match r.summary with
  | some _ => r
  | none => { r with summary := r.parsed }

/-- Minimum channel id among those whose topic matches, or `-1`. -/
def bestChannel (channels : List (Nat × String)) (topic : String) : Int :=
  match (channels.filter (fun p => p.2 = topic)).map Prod.fst with
  | [] => -1
  | x :: xs => ((x :: xs).foldl Nat.min x : Nat)

/-- Model of `topic_to_channel_id` (mcap_reader.rs lines 614-632). -/
def topic_to_channel_id (r : ReaderState) (topic : String) :
    Int × ReaderState :=
  let r1 := readerEnsureSummary r
  match r1.summary with
  | some s => (bestChannel s.channels topic, r1)
  | none => (-1, r1)

/-- Model of `message_count_total` (mcap_reader.rs lines 681-709). -/
def message_count_total (r : ReaderState) : Int × ReaderState :=
  let r1 := readerEnsureSummary r
  match r1.summary with
  | none => (0, r1)
  | some s =>
    match s.statsCount with
    | some c => ((c : Int), r1)
    | none =>
      ((s.chunks.map (fun c =>
        ((chunkChannels c).map (fun ch => (chunkEntries c ch).length)).sum)).sum,
       r1)

/-- Clamp a target log time to an optional end bound. -/
def clampEnd (v : Nat) (t_end : Option Nat) : Nat :=
  match t_end with
  | some e => min v e
  | none => v

/-- Clamp a logical time to an optional end bound, over `Int`. -/
def clampEndInt (v : Int) (t_end : Option Nat) : Int :=
  match t_end with
  | some e => min v (e : Int)
  | none => v

/-! Replay scheduler (`MCAPReplay`, replay.rs).  Wall-clock `Instant`s are
nonnegative microsecond timestamps; each tick receives the current wall
clock `now`.  The `f64` products `elapsed_secs * 1e6 * speed` are modelled
as exact rational arithmetic followed by the `as u64`/`as i64` floor. -/

/-- State of `MCAPReplay`; `readerLog` / `readerStatsStart` stand for the
attached reader's summary chunk list and stats `message_start_time`. -/
structure ReplayState where
  readerLog : Option Log
  readerStatsStart : Option Nat
  filter_channels : Option (List Nat)
  time_start : Option Nat
  time_end : Option Nat
  running : Bool
  speed : ℚ
  looping : Bool
  iter : Option IterState
  start_real_time : Option Nat
  start_log_time : Option Nat
  deriving DecidableEq

/-- The freshly constructed node: `#[class(init)]` gives every field
without an `#[init(val = ...)]` its Rust `Default` value, so `speed` is
`0.0`, flags are false and the options are `None`. -/
def replayInit : ReplayState :=
  { readerLog := none, readerStatsStart := none, filter_channels := none,
    time_start := none, time_end := none, running := false, speed := 0,
    looping := false, iter := none, start_real_time := none,
    start_log_time := none }

/-- Model of `set_speed` (replay.rs lines 431-433). -/
def set_speed (rs : ReplayState) (speed : ℚ) : ReplayState :=
  { rs with speed := if speed ≤ 0 then 1 else speed }

/-- Model of the reader's `first_message_time_usec` as the replay calls it. -/
def replayFirstMsgTime (rs : ReplayState) : Int :=
  match rs.readerStatsStart with
  | some v => (v : Int)
  | none => -1

/-- Model of `stop` (replay.rs lines 376-382). -/
def replayStop (rs : ReplayState) : ReplayState :=
  { rs with
      running := false, iter := none, start_real_time := none,
      start_log_time := none }

/-- Model of `setup_iterator` (replay.rs lines 214-234). -/
def setupIterator (rs : ReplayState) (start_time : Option Nat) :
    Bool × ReplayState :=
  match rs.readerLog with
  | none => (false, rs)
  | some log =>
    let it0 := freshIter log none
    let it1 :=
      match rs.filter_channels with
      | some l => if l.length = 1 then for_channel it0 ((l.headD 0 : Nat) : Int) else it0
      | none => it0
    let it2 :=
      match start_time with
      | some t => (seek_to_time it1 (t : Int)).2
      | none => it1
    (true, { rs with iter := some it2 })

/-- Start log time of a (re)start: the configured range start if set, else
the file's first message time clamped at 0. -/
def restartStartTime (rs : ReplayState) : Nat :=
  match rs.time_start with
  | some s => s
  | none => (max (replayFirstMsgTime rs) 0).toNat

/-- Model of `restart_from_range_start` (replay.rs lines 236-252). -/
def restartFromRangeStart (rs : ReplayState) (now : Nat) : ReplayState :=
  match setupIterator rs (some (restartStartTime rs)) with
  | (false, rs1) => replayStop rs1
  | (true, rs1) =>
    { rs1 with
        start_log_time := some (restartStartTime rs), start_real_time := some now,
        running := true }

/-- Model of `set_time_range` (replay.rs lines 335-349): a negative bound
clears it ("unbounded"); restarts if running. -/
def set_time_range (rs : ReplayState) (start_usec end_usec : Int) (now : Nat) :
    ReplayState :=
  let rs1 := { rs with
    time_start := if 0 ≤ start_usec then some start_usec.toNat else none,
    time_end := if 0 ≤ end_usec then some end_usec.toNat else none }
  if rs1.running then restartFromRangeStart rs1 now else rs1

/-- The three `EndAction` values of `update_replay`. -/
inductive EndAction where
  | keep
  | stopAll
  | restart
  deriving Repr, DecidableEq

/-- Collection loop of `update_replay` (replay.rs lines 120-186): peek the
iterator, queue every due message at or before `target` (skipping messages
rejected by a multi-channel filter), stop on the time-end bound, end of
stream, or the first message beyond `target`. -/
def updateLoop (looping : Bool) (t_end : Option Nat) (filt : Option (List Nat))
    (target : Nat) : Nat → IterState → List Message × IterState × EndAction
  | 0, it => ([], it, EndAction.keep)
  | fuel + 1, it =>
    let pr := peek_message it
    match pr.1 with
    | none => ([], pr.2, if looping then EndAction.restart else EndAction.stopAll)
    | some next =>
      if (match t_end with
          | some e => decide (e < next.log_time)
          | none => false) then
        ([], pr.2, if looping then EndAction.restart else EndAction.stopAll)
      else if next.log_time ≤ target then
        if (match filt with
            | some l => !(l.contains next.ch)
            | none => false) then
          updateLoop looping t_end filt target fuel (get_next_message pr.2).2
        else
          match get_next_message pr.2 with
          | (some m, it2) =>
            let r := updateLoop looping t_end filt target fuel it2
            (m :: r.1, r.2)
          | (none, it2) => ([], it2, EndAction.keep)
      else ([], pr.2, EndAction.keep)

/-- Dispatch of the `EndAction` at the end of a tick. -/
def applyEndAction (rs : ReplayState) (now : Nat) : EndAction → ReplayState
  | EndAction.stopAll => replayStop rs
  | EndAction.restart => restartFromRangeStart rs now
  | EndAction.keep => rs

/-- Model of `update_replay` (replay.rs lines 90-198) at wall clock `now`.
Returns the queued messages in the order they are emitted to the host
callback (all collected before any is emitted) and the state after the
tick. -/
def update_replay (rs : ReplayState) (now : Nat) : List Message × ReplayState :=
  if rs.running = false then ([], rs)
  else
    match rs.start_real_time, rs.start_log_time with
    | some w0, some t0 =>
      let elapsedUs : Nat := (((now - w0 : Nat) : ℚ) * rs.speed).floor.toNat
      let target := clampEnd (t0 + elapsedUs) rs.time_end
      match rs.iter with
      | none =>
        if rs.looping then ([], restartFromRangeStart rs now)
        else ([], replayStop rs)
      | some it =>
        let r := updateLoop rs.looping rs.time_end rs.filter_channels target
          ((futureList it).length + 1) it
        let rs1 := { rs with iter := some r.2.1 }
        (r.1, applyEndAction rs1 now r.2.2)
    | _, _ => ([], rs)

/-- Model of `current_time_usec` (replay.rs lines 413-427). -/
def current_time_usec (rs : ReplayState) (now : Nat) : Int :=
  match rs.start_log_time, rs.start_real_time with
  | some sl, some sr =>
    let elapsed_us : Int := (((now - sr : Nat) : ℚ) * rs.speed).floor
    let cur : Int := (sl : Int) + elapsed_us
    match rs.time_end with
    | some e => if (e : Int) < cur then (e : Int) else cur
    | none => cur
  | _, _ => -1

/-! Well-formedness predicates about a log, and concrete logs used as
counterexamples and witnesses. -/

/-- All messages of the log, in chunk order then storage order. -/
def logMsgs (log : Log) : List Message :=
  log.flatMap (fun c => c.msgs)

/-- Chunk index ranges are mutually non-overlapping (interval disjointness,
irrespective of their order in the summary). -/
def mutuallyDisjoint (log : Log) : Prop :=
  log.Pairwise (fun c d => c.endTime < d.startTime ∨ d.endTime < c.startTime)

/-- Chunk index ranges are listed in non-decreasing time order and do not
overlap: every chunk ends no later than any later chunk starts. -/
def orderedDisjoint (log : Log) : Prop :=
  log.Pairwise (fun c d => c.endTime ≤ d.startTime)

/-- Every chunk's index time range covers the log times of its messages. -/
def rangesCover (log : Log) : Prop :=
  ∀ c ∈ log, ∀ m ∈ c.msgs, c.startTime ≤ m.log_time ∧ m.log_time ≤ c.endTime

/-- Each chunk's messages are internally sorted by log time (so each
per-channel message-index block is sorted, as the format guarantees). -/
def internallySorted (log : Log) : Prop :=
  ∀ c ∈ log, List.Sorted msgLE c.msgs

/-- In every chunk, the message-index entries of channel `ch` are sorted
ascending by log time — the format's per-channel guarantee ("within one
channel of one chunk, sorted ascending by construction"); the chunk's
cross-channel storage order may interleave timestamps freely. -/
def channelEntriesSorted (log : Log) (ch : Nat) : Prop :=
  ∀ c ∈ log, List.Sorted (· ≤ ·) (chunkEntries c ch)

/-- A batch of messages listed in non-decreasing log-time order. -/
def timeSorted (l : List Message) : Prop :=
  List.Sorted msgLE l

/-- Two disjoint chunks listed against time order: chunk at 20 before
chunk at 10. -/
def cexUnorderedLog : Log :=
  [⟨20, 20, [⟨0, 20, 0⟩]⟩, ⟨10, 10, [⟨0, 10, 1⟩]⟩]

/-- One chunk holding three distinct messages that share log_time 5 on
channel 0 (duplicate timestamps are ordinary in recorded logs). -/
def dupLog5 : Log :=
  [⟨5, 5, [⟨0, 5, 0⟩, ⟨0, 5, 1⟩, ⟨0, 5, 2⟩]⟩]

/-- One chunk holding three distinct messages that share log_time 7 on
channel 0. -/
def dupLog7 : Log :=
  [⟨7, 7, [⟨0, 7, 0⟩, ⟨0, 7, 1⟩, ⟨0, 7, 2⟩]⟩]

/-- One chunk with a single message at time 10 on channel 0. -/
def oneMsgLog : Log :=
  [⟨10, 10, [⟨0, 10, 0⟩]⟩]

/-- The spec's running example: one chunk, channel 0 at times 10, 20, 30
and channel 1 at times 15, 25. -/
def specExampleLog : Log :=
  [⟨10, 30, [⟨0, 10, 0⟩, ⟨1, 15, 1⟩, ⟨0, 20, 2⟩, ⟨1, 25, 3⟩, ⟨0, 30, 4⟩]⟩]

/-- An ordinary multi-channel chunk whose storage order interleaves the
channels (ch0@10, ch1@5, ch0@20, ch1@25): not globally time-sorted, but
each channel's entries are sorted ascending. -/
def interleavedLog : Log :=
  [⟨5, 25, [⟨0, 10, 0⟩, ⟨1, 5, 1⟩, ⟨0, 20, 2⟩, ⟨1, 25, 3⟩]⟩]

/-- A two-chunk time-ordered log used as a witness input. -/
def twoChunkLog : Log :=
  [⟨10, 20, [⟨0, 10, 0⟩, ⟨1, 15, 1⟩, ⟨0, 20, 2⟩]⟩,
   ⟨25, 30, [⟨1, 25, 3⟩, ⟨0, 30, 4⟩]⟩]

/-- A running replay state over `twoChunkLog` anchored at log time 10 and
wall clock 1000, with speed already set to 1. -/
def replayReady : ReplayState :=
  { replayInit with
      readerLog := some twoChunkLog, readerStatsStart := some 10,
      running := true, speed := 1,
      iter := some (freshIter twoChunkLog none),
      start_real_time := some 1000, start_log_time := some 10 }

/-! Infrastructure lemmas: the buffered-chunk machinery realises the
observable message sequence `futureList`. -/

theorem flatBatches_nil (fc : Option Nat) : flatBatches fc [] = [] := rfl

theorem flatBatches_cons (fc : Option Nat) (c : Chunk) (cs : List Chunk) :
    flatBatches fc (c :: cs) = chunkBatch fc c ++ flatBatches fc cs := by
  simp [flatBatches]

theorem prepareFromList_none_iff {fc : Option Nat} {cs : List Chunk} :
    prepareFromList fc cs = none ↔ ∀ c ∈ cs, chunkBatch fc c = [] := by
  induction cs with
  | nil => simp [prepareFromList]
  | cons c rest ih =>
    rcases hb : (chunkBatch fc c).isEmpty with _ | _
    · have hne : chunkBatch fc c ≠ [] := by
        intro hnil; rw [hnil] at hb; simp at hb
      simp [prepareFromList, hb, hne]
    · have hnil : chunkBatch fc c = [] := List.isEmpty_iff.mp hb
      simp [prepareFromList, hb, Option.map_eq_none', ih, hnil]

theorem flatBatches_eq_nil_of_none {fc : Option Nat} {cs : List Chunk}
    (h : prepareFromList fc cs = none) : flatBatches fc cs = [] := by
  rw [flatBatches, List.flatten_eq_nil_iff]
  intro l hl
  obtain ⟨c, hc, rfl⟩ := List.mem_map.mp hl
  exact prepareFromList_none_iff.mp h c hc

theorem prepareFromList_some {fc : Option Nat} {cs : List Chunk} {k : Nat}
    {b : List Message} (h : prepareFromList fc cs = some (k, b)) :
    b ≠ [] ∧ flatBatches fc cs = b ++ flatBatches fc (cs.drop (k + 1)) := by
  induction cs generalizing k with
  | nil => simp [prepareFromList] at h
  | cons c rest ih =>
    rcases hb : (chunkBatch fc c).isEmpty with _ | _
    · simp only [prepareFromList, hb, Bool.false_eq_true, if_false] at h
      obtain ⟨hk, hbeq⟩ := Prod.mk.injEq .. ▸ Option.some.injEq .. ▸ h
      subst hk
      refine ⟨hbeq ▸ ?_, ?_⟩
      · intro hnil; rw [hnil] at hb; simp at hb
      · rw [flatBatches_cons, hbeq]
        simp
    · simp only [prepareFromList, hb, if_true, Option.map_eq_some'] at h
      obtain ⟨⟨k1, b1⟩, hrest, heq⟩ := h
      obtain ⟨hk, hbeq⟩ := Prod.mk.injEq .. ▸ heq
      subst hbeq
      obtain ⟨hne, hflat⟩ := ih hrest
      have hnil : chunkBatch fc c = [] := List.isEmpty_iff.mp hb
      refine ⟨hne, ?_⟩
      rw [flatBatches_cons, hnil, hflat, ← hk]
      simp

theorem tailList_set_peek (s : IterState) (p : Option Message) :
    tailList { s with peek := p } = tailList s := rfl

theorem next_internal_frame (s : IterState) :
    (next_message_internal s).2.peek = s.peek ∧
    (next_message_internal s).2.index = s.index ∧
    (next_message_internal s).2.log = s.log ∧
    (next_message_internal s).2.filterCh = s.filterCh := by
  unfold next_message_internal ensureSummary prepOk prepState
  dsimp only
  refine ⟨?_, ?_, ?_, ?_⟩ <;> (repeat' split) <;> rfl

theorem flatBatches_drop_ge {fc : Option Nat} {log : Log} {n : Nat}
    (h : log.length ≤ n) : flatBatches fc (log.drop n) = [] := by
  rw [List.drop_eq_nil_of_le h]
  rfl

theorem next_internal_step (s : IterState) :
    (next_message_internal s).1 = (tailList s).head? ∧
    tailList (next_message_internal s).2 = (tailList s).tail := by
  obtain ⟨log, fc, sl, idx, pk, ci, cm, cp⟩ := s
  by_cases hemp : cm = []
  · subst hemp
    rcases hp : prepareFromList fc (log.drop ci) with _ | ⟨k, b⟩
    · have hall : flatBatches fc (log.drop ci) = [] := flatBatches_eq_nil_of_none hp
      have hlen : flatBatches fc (log.drop log.length) = [] :=
        flatBatches_drop_ge (Nat.le_refl _)
      by_cases hci : ci < log.length
      · simp [next_message_internal, ensureSummary, prepOk, prepState, hp, hci,
          tailList, hall, hlen, flatBatches_nil]
      · simp [next_message_internal, ensureSummary, prepOk, prepState, hp, hci,
          tailList, hall]
    · obtain ⟨hbne, hflat⟩ := prepareFromList_some hp
      obtain ⟨m, b1, rfl⟩ := List.exists_cons_of_ne_nil hbne
      have harith : ci + (k + 1) = ci + k + 1 := by omega
      simp [next_message_internal, ensureSummary, prepOk, prepState, hp,
        tailList, hflat, List.drop_drop, harith]
  · obtain ⟨x, cm1, rfl⟩ := List.exists_cons_of_ne_nil hemp
    by_cases hpos : (x :: cm1).length ≤ cp
    · have hpos1 : cm1.length + 1 ≤ cp := by simpa using hpos
      have hdrop : (x :: cm1).drop cp = [] := List.drop_eq_nil_of_le hpos
      rcases hp : prepareFromList fc (log.drop (ci + 1)) with _ | ⟨k, b⟩
      · have hall : flatBatches fc (log.drop (ci + 1)) = [] :=
          flatBatches_eq_nil_of_none hp
        have hlen : flatBatches fc (log.drop log.length) = [] :=
          flatBatches_drop_ge (Nat.le_refl _)
        by_cases hci : ci + 1 < log.length
        · simp [next_message_internal, ensureSummary, prepOk, prepState, hp, hci,
            tailList, hall, hlen, hdrop, hpos1, flatBatches_nil]
        · have h2 : flatBatches fc (log.drop (ci + 1 + 1)) = [] := by
            apply flatBatches_drop_ge
            omega
          simp [next_message_internal, ensureSummary, prepOk, prepState, hp, hci,
            tailList, hall, hdrop, hpos1, h2]
      · obtain ⟨hbne, hflat⟩ := prepareFromList_some hp
        obtain ⟨m, b1, rfl⟩ := List.exists_cons_of_ne_nil hbne
        have harith : ci + 1 + (k + 1) = ci + 1 + k + 1 := by omega
        simp [next_message_internal, ensureSummary, prepOk, prepState, hp,
          tailList, hflat, List.drop_drop, hdrop, hpos1, harith]
    · have hlt : cp < (x :: cm1).length := Nat.not_le.mp hpos
      have hpos1 : ¬ cm1.length + 1 ≤ cp := by simpa using hpos
      have hcons : (x :: cm1).drop cp = (x :: cm1)[cp] :: (x :: cm1).drop (cp + 1) :=
        List.drop_eq_getElem_cons hlt
      simp [next_message_internal, ensureSummary, prepOk, prepState, hpos1,
        tailList, hcons]

theorem head?_toList_append_tail (l : List Message) :
    l.head?.toList ++ l.tail = l := by
  cases l <;> simp

theorem fillPeek_futureList (s : IterState) :
    futureList (fillPeek s) = futureList s := by
  rcases hpk : s.peek with _ | m
  · obtain ⟨h1, h2⟩ := next_internal_step s
    simp only [fillPeek, hpk, futureList, tailList_set_peek, h1, h2]
    exact head?_toList_append_tail (tailList s)
  · simp [fillPeek, hpk]

theorem fillPeek_peek (s : IterState) :
    (fillPeek s).peek = (futureList s).head? := by
  rcases hpk : s.peek with _ | m
  · obtain ⟨h1, _⟩ := next_internal_step s
    simp [fillPeek, hpk, futureList, h1]
  · simp [fillPeek, hpk, futureList]

theorem fillPeek_frame (s : IterState) :
    (fillPeek s).index = s.index ∧ (fillPeek s).log = s.log ∧
    (fillPeek s).filterCh = s.filterCh := by
  rcases hpk : s.peek with _ | m
  · obtain ⟨_, h2, h3, h4⟩ := next_internal_frame s
    simp [fillPeek, hpk, h2, h3, h4]
  · simp [fillPeek, hpk]

theorem peek_message_fst (s : IterState) :
    (peek_message s).1 = (futureList s).head? := by
  simp [peek_message, fillPeek_peek]

theorem peek_message_futureList (s : IterState) :
    futureList (peek_message s).2 = futureList s := by
  simp [peek_message, fillPeek_futureList]

theorem has_next_message_fst (s : IterState) :
    (has_next_message s).1 = !(futureList s).isEmpty := by
  rcases h : futureList s with _ | ⟨m, t⟩ <;>
    simp [has_next_message, fillPeek_peek, h]

theorem has_next_message_futureList (s : IterState) :
    futureList (has_next_message s).2 = futureList s := by
  simp [has_next_message, fillPeek_futureList]

theorem get_next_message_fst (s : IterState) :
    (get_next_message s).1 = (futureList s).head? := by
  rw [get_next_message]
  rcases h : (fillPeek s).peek with _ | m <;>
    simp [← fillPeek_peek s, h]

theorem get_next_message_futureList (s : IterState) :
    futureList (get_next_message s).2 = (futureList s).tail := by
  rw [get_next_message]
  have hfut := fillPeek_futureList s
  have hpk := fillPeek_peek s
  rcases h : (fillPeek s).peek with _ | m
  · rw [h] at hpk
    rcases hf : futureList s with _ | ⟨a, t⟩
    · simpa [hf, futureList, h] using hfut.trans hf
    · rw [hf] at hpk
      simp at hpk
  · rw [h] at hpk
    rcases hf : futureList s with _ | ⟨a, t⟩
    · rw [hf] at hpk
      simp at hpk
    · rw [hf] at hpk
      simp only [List.head?_cons, Option.some.injEq] at hpk
      subst hpk
      rw [hf] at hfut
      simp only [futureList, h] at hfut
      have htl : tailList (fillPeek s) = t := by simpa using hfut
      have hcons :
          tailList { fillPeek s with peek := none, index := (fillPeek s).index + 1 } =
            tailList (fillPeek s) := rfl
      simp [futureList, hcons, htl]

theorem drainN_eq_take (n : Nat) (s : IterState) :
    drainN n s = (futureList s).take n := by
  induction n generalizing s with
  | zero => simp [drainN]
  | succ n ih =>
    have hfst := get_next_message_fst s
    have hsnd := get_next_message_futureList s
    rw [drainN]
    rcases hg : get_next_message s with ⟨fst, s1⟩
    rw [hg] at hfst hsnd
    rcases hf : futureList s with _ | ⟨a, t⟩
    · rw [hf] at hfst
      simp only [List.head?_nil] at hfst
      subst hfst
      simp
    · rw [hf] at hfst hsnd
      simp only [List.head?_cons] at hfst
      subst hfst
      simp only [List.tail_cons] at hsnd
      simp [ih, hsnd]

/-! Claim theorems. -/

/-- C9: `has_next_message` and `peek_message` never advance the iterator —
the observable sequence of future messages (any drain) is unchanged and
repeated peeks return the same message — while `get_next_message` returns
exactly the previously peeked value and advances by one message. -/
theorem peek_consume_protocol (s : IterState) (n : Nat) :
    drainN n (has_next_message s).2 = drainN n s ∧
    drainN n (peek_message s).2 = drainN n s ∧
    (peek_message (peek_message s).2).1 = (peek_message s).1 ∧
    (get_next_message (peek_message s).2).1 = (peek_message s).1 ∧
    (get_next_message s).1 = (futureList s).head? ∧
    futureList (get_next_message s).2 = (futureList s).tail := by
  refine ⟨?_, ?_, ?_, ?_, get_next_message_fst s, get_next_message_futureList s⟩
  · rw [drainN_eq_take, drainN_eq_take, has_next_message_futureList]
  · rw [drainN_eq_take, drainN_eq_take, peek_message_futureList]
  · rw [peek_message_fst, peek_message_fst, peek_message_futureList]
  · rw [get_next_message_fst, peek_message_fst, peek_message_futureList]

/-- C10: `get_message_at_time` never moves the iterator: the buffered chunk
index, intra-chunk position, buffered batch, yielded-message count and the
pending peeked message are unchanged, and any subsequent drain through
`get_next_message` is the same as if the call had not happened. -/
theorem get_message_at_time_frame (s : IterState) (ch t : Int) (n : Nat) :
    (get_message_at_time s ch t).2.chunk_i = s.chunk_i ∧
    (get_message_at_time s ch t).2.chunk_msgs = s.chunk_msgs ∧
    (get_message_at_time s ch t).2.chunk_pos = s.chunk_pos ∧
    (get_message_at_time s ch t).2.peek = s.peek ∧
    (get_message_at_time s ch t).2.index = s.index ∧
    drainN n (get_message_at_time s ch t).2 = drainN n s := by
  have hsnd : (get_message_at_time s ch t).2 = ensureSummary s := by
    unfold get_message_at_time
    split <;> rfl
  have hfut : futureList (ensureSummary s) = futureList s := rfl
  rw [hsnd]
  refine ⟨rfl, rfl, rfl, rfl, rfl, ?_⟩
  rw [drainN_eq_take, drainN_eq_take, hfut]

/-- C1 (divergence evaluation): on one chunk whose three messages share
log_time 5 on one channel, the indexed count over `[5,5]` is 1 — the two
Rust binary searches land on the same duplicate — while the bulk query
decodes and returns all 3 messages. -/
theorem count_vs_bulk_duplicates :
    message_count_in_range dupLog5 5 5 = 1 ∧
    (messages_in_time_range dupLog5 5 5).length = 3 := by
  constructor <;> rfl

/-- C3 (divergence evaluation): on one chunk whose three messages share
log_time 7, `seek_to_time 7` succeeds but positions after the duplicate
Rust `binary_search_by_key` happens to return, so draining yields only the
message with payload 2 even though all three messages have log_time ≥ 7. -/
theorem seek_to_time_duplicates :
    (seek_to_time (freshIter dupLog7 none) 7).1 = true ∧
    drainN 3 (seek_to_time (freshIter dupLog7 none) 7).2 = [⟨0, 7, 2⟩] ∧
    ((logMsgs dupLog7).filter (fun m => 7 ≤ m.log_time)).length = 3 := by
  refine ⟨rfl, ?_, rfl⟩
  rfl

/-- C6 (divergence evaluation): on a file whose `Summary::read` yields
`Ok(None)` (no summary section), `topic_to_channel_id` and
`message_count_total` return their sentinels but `last_error` stays empty —
no error description is recorded. -/
theorem no_summary_silent_sentinel :
    (topic_to_channel_id (openReader none) "imu").1 = -1 ∧
    (topic_to_channel_id (openReader none) "imu").2.lastError = "" ∧
    (message_count_total (openReader none)).1 = 0 ∧
    (message_count_total (openReader none)).2.lastError = "" := by
  refine ⟨rfl, rfl, rfl, rfl⟩

/-- C7 (counterexample): the freshly constructed replay node has speed 0,
not a strictly positive speed — `#[class(init)]` defaults `speed: f64` to
0.0 and the coercion in `set_speed` only runs when `set_speed` is called. -/
theorem fresh_replay_speed_zero :
    replayInit.speed = 0 ∧ ¬ 0 < replayInit.speed := by
  constructor
  · rfl
  · intro h
    exact absurd rfl (ne_of_gt h)

/-- C2 (counterexample): two mutually non-overlapping, internally sorted
chunks listed against time order in the summary: the drained sequence is
[20, 10], which is not non-decreasing in log_time. -/
theorem merge_unordered_cex :
    mutuallyDisjoint cexUnorderedLog ∧ internallySorted cexUnorderedLog ∧
    drainN 2 (freshIter cexUnorderedLog none) = [⟨0, 20, 0⟩, ⟨0, 10, 1⟩] ∧
    ¬ timeSorted (drainN 2 (freshIter cexUnorderedLog none)) := by
  refine ⟨?_, ?_, rfl, ?_⟩
  · unfold mutuallyDisjoint
    decide
  · unfold internallySorted
    decide
  · unfold timeSorted
    decide

/-- C5 (counterexample): with a negative end bound, `messages_in_time_range`
returns the empty list because `start_usec > end_usec` short-circuits, even
though the log has a message with log_time ≥ 0 — a negative endpoint does
not mean "unbounded" here. -/
theorem negative_end_not_unbounded :
    messages_in_time_range oneMsgLog 0 (-1) = [] ∧
    (logMsgs oneMsgLog).filter (fun m => decide (0 ≤ m.log_time)) = [⟨0, 10, 0⟩] := by
  refine ⟨rfl, rfl⟩

/-! Frame lemmas for the replay scheduler: the configuration fields the
amended claims talk about are only written by their setters. -/

theorem setupIterator_frame (rs : ReplayState) (st : Option Nat) :
    (setupIterator rs st).2.speed = rs.speed ∧
    (setupIterator rs st).2.time_start = rs.time_start ∧
    (setupIterator rs st).2.time_end = rs.time_end := by
  unfold setupIterator
  split <;> exact ⟨rfl, rfl, rfl⟩

theorem restartFromRangeStart_frame (rs : ReplayState) (now : Nat) :
    (restartFromRangeStart rs now).speed = rs.speed ∧
    (restartFromRangeStart rs now).time_start = rs.time_start ∧
    (restartFromRangeStart rs now).time_end = rs.time_end := by
  unfold restartFromRangeStart
  have hf := setupIterator_frame rs (some (restartStartTime rs))
  rcases h : setupIterator rs (some (restartStartTime rs)) with ⟨ok, rs1⟩
  rw [h] at hf
  rcases ok <;> simp_all [replayStop]

theorem replayStop_frame (rs : ReplayState) :
    (replayStop rs).speed = rs.speed ∧
    (replayStop rs).time_start = rs.time_start ∧
    (replayStop rs).time_end = rs.time_end :=
  ⟨rfl, rfl, rfl⟩

theorem applyEndAction_frame (rs : ReplayState) (now : Nat) (a : EndAction) :
    (applyEndAction rs now a).speed = rs.speed ∧
    (applyEndAction rs now a).time_start = rs.time_start ∧
    (applyEndAction rs now a).time_end = rs.time_end := by
  rcases a
  · exact ⟨rfl, rfl, rfl⟩
  · exact ⟨rfl, rfl, rfl⟩
  · exact restartFromRangeStart_frame rs now

theorem update_replay_frame (rs : ReplayState) (now : Nat) :
    (update_replay rs now).2.speed = rs.speed ∧
    (update_replay rs now).2.time_start = rs.time_start ∧
    (update_replay rs now).2.time_end = rs.time_end := by
  unfold update_replay
  repeat' split
  all_goals
    simp_all [replayStop, restartFromRangeStart_frame, applyEndAction_frame]

/-- C7 (amended): every state produced by `set_speed` has a strictly
positive speed — a non-positive argument is coerced to 1 — and the other
scheduler operations never write the speed field; but the freshly
constructed scheduler holds speed 0 until `set_speed` is first called. -/
theorem set_speed_positive (rs : ReplayState) (q : ℚ) (a b : Int) (now : Nat) :
    0 < (set_speed rs q).speed ∧
    (q ≤ 0 → (set_speed rs q).speed = 1) ∧
    (0 < q → (set_speed rs q).speed = q) ∧
    (replayStop rs).speed = rs.speed ∧
    (restartFromRangeStart rs now).speed = rs.speed ∧
    (set_time_range rs a b now).speed = rs.speed ∧
    (update_replay rs now).2.speed = rs.speed ∧
    replayInit.speed = 0 := by
  refine ⟨?_, ?_, ?_, rfl, (restartFromRangeStart_frame rs now).1, ?_,
    (update_replay_frame rs now).1, rfl⟩
  · by_cases h : q ≤ 0
    · simp [set_speed, h]
    · simp [set_speed, h]
      exact lt_of_not_le h
  · intro h
    simp [set_speed, h]
  · intro h
    simp [set_speed, not_le.mpr h]
  · unfold set_time_range
    dsimp only
    repeat' split
    all_goals simp [restartFromRangeStart_frame]

/-- C7 amended witness at concrete inputs. -/
theorem set_speed_positive_witness :
    0 < (set_speed replayInit (-2)).speed ∧
    ((-2 : ℚ) ≤ 0 → (set_speed replayInit (-2)).speed = 1) ∧
    ((0 : ℚ) < -2 → (set_speed replayInit (-2)).speed = -2) ∧
    (replayStop replayInit).speed = replayInit.speed ∧
    (restartFromRangeStart replayInit 5).speed = replayInit.speed ∧
    (set_time_range replayInit 1 2 5).speed = replayInit.speed ∧
    (update_replay replayInit 5).2.speed = replayInit.speed ∧
    replayInit.speed = 0 :=
  set_speed_positive replayInit (-2) 1 2 5

/-- C5 (amended): `set_time_range` treats a negative endpoint as
"unbounded" (it clears the bound), while the indexed range queries return
empty/0 whenever start > end and clamp negative endpoints to 0, so a
negative end bound never means "unbounded" there. -/
theorem range_endpoint_semantics (rs : ReplayState) (a b : Int) (now : Nat)
    (log : Log) (s e : Int) :
    ((set_time_range rs a b now).time_start =
      (if 0 ≤ a then some a.toNat else none)) ∧
    ((set_time_range rs a b now).time_end =
      (if 0 ≤ b then some b.toNat else none)) ∧
    (e < s → messages_in_time_range log s e = [] ∧
      message_count_in_range log s e = 0) ∧
    (s ≤ e → e < 0 →
      messages_in_time_range log s e = messages_in_time_range log 0 0) := by
  have hbounds :
      (set_time_range rs a b now).time_start =
        (if 0 ≤ a then some a.toNat else none) ∧
      (set_time_range rs a b now).time_end =
        (if 0 ≤ b then some b.toNat else none) := by
    unfold set_time_range
    dsimp only
    repeat' split
    all_goals simp_all [restartFromRangeStart_frame]
  refine ⟨hbounds.1, hbounds.2, ?_, ?_⟩
  · intro h
    constructor
    · unfold messages_in_time_range
      simp [h]
    · unfold message_count_in_range
      simp [h]
  · intro hse he
    have hs0 : s < 0 := lt_of_le_of_lt hse he
    unfold messages_in_time_range
    simp [not_lt.mpr hse, hs0, he]

/-- C5 amended witness at concrete inputs. -/
theorem range_endpoint_semantics_witness :
    ((set_time_range replayInit 3 (-1) 5).time_start =
      (if (0 : Int) ≤ 3 then some (Int.toNat 3) else none)) ∧
    ((set_time_range replayInit 3 (-1) 5).time_end =
      (if (0 : Int) ≤ -1 then some (Int.toNat (-1)) else none)) ∧
    ((-1 : Int) < 3 → messages_in_time_range oneMsgLog 3 (-1) = [] ∧
      message_count_in_range oneMsgLog 3 (-1) = 0) ∧
    ((3 : Int) ≤ -1 → (-1 : Int) < 0 →
      messages_in_time_range oneMsgLog 3 (-1) =
        messages_in_time_range oneMsgLog 0 0) :=
  range_endpoint_semantics replayInit 3 (-1) 5 oneMsgLog 3 (-1)

/-! The amended merge-iterator drain property. -/

theorem futureList_fresh (log : Log) (fc : Option Nat) :
    futureList (freshIter log fc) = flatBatches fc log := by
  simp [futureList, freshIter, tailList]

theorem chMatch_none : chMatch none = fun _ : Message => true := rfl

theorem chunkBatch_none_perm (c : Chunk) : (chunkBatch none c).Perm c.msgs := by
  unfold chunkBatch
  rw [chMatch_none, List.filter_true]
  exact List.perm_insertionSort msgLE c.msgs

theorem flatBatches_none_perm (log : Log) :
    (flatBatches none log).Perm (logMsgs log) := by
  induction log with
  | nil => simp [flatBatches, logMsgs]
  | cons c rest ih =>
    rw [flatBatches_cons]
    have hlm : logMsgs (c :: rest) = c.msgs ++ logMsgs rest := by
      simp [logMsgs]
    rw [hlm]
    exact (chunkBatch_none_perm c).append ih

theorem chunkBatch_sorted (fc : Option Nat) (c : Chunk) :
    List.Sorted msgLE (chunkBatch fc c) :=
  List.sorted_insertionSort msgLE (c.msgs.filter (chMatch fc))

theorem mem_chunkBatch {fc : Option Nat} {c : Chunk} {m : Message}
    (h : m ∈ chunkBatch fc c) : m ∈ c.msgs := by
  unfold chunkBatch at h
  rw [List.mem_insertionSort] at h
  exact List.mem_of_mem_filter h

theorem mem_flatBatches {fc : Option Nat} {cs : List Chunk} {m : Message}
    (h : m ∈ flatBatches fc cs) : ∃ c ∈ cs, m ∈ chunkBatch fc c := by
  unfold flatBatches at h
  obtain ⟨l, hl, hm⟩ := List.mem_flatten.mp h
  obtain ⟨c, hc, rfl⟩ := List.mem_map.mp hl
  exact ⟨c, hc, hm⟩

theorem flatBatches_sorted (fc : Option Nat) (log : Log)
    (hord : orderedDisjoint log) (hcov : rangesCover log) :
    List.Sorted msgLE (flatBatches fc log) := by
  induction log with
  | nil => simp [flatBatches]
  | cons c rest ih =>
    rw [flatBatches_cons]
    rw [show List.Sorted msgLE (chunkBatch fc c ++ flatBatches fc rest) ↔ _ from
      List.pairwise_append]
    refine ⟨chunkBatch_sorted fc c, ?_, ?_⟩
    · exact ih (List.Pairwise.of_cons hord)
        (fun d hd => hcov d (List.mem_cons_of_mem c hd))
    · intro a ha b hb
      obtain ⟨d, hd, hbd⟩ := mem_flatBatches hb
      have hac := hcov c (List.mem_cons_self c rest) a (mem_chunkBatch ha)
      have hbd2 := hcov d (List.mem_cons_of_mem c hd) b (mem_chunkBatch hbd)
      have hcd : c.endTime ≤ d.startTime :=
        (List.rel_of_pairwise_cons hord) hd
      unfold msgLE
      omega

/-- C2 (amended): if the chunk index ranges cover their messages, each chunk
is internally sorted, and the summary lists the chunks in non-decreasing
non-overlapping time order, draining the unfiltered merge iterator yields
every message of the log exactly once (a permutation of the log's messages)
in non-decreasing log_time order. -/
theorem merge_iterator_ordered_drain (log : Log)
    (hord : orderedDisjoint log) (hcov : rangesCover log)
    (hint : internallySorted log) :
    (drainN (logMsgs log).length (freshIter log none)).Perm (logMsgs log) ∧
    timeSorted (drainN (logMsgs log).length (freshIter log none)) := by
  have hperm := flatBatches_none_perm log
  have hlen : (flatBatches none log).length = (logMsgs log).length :=
    hperm.length_eq
  have hdrain :
      drainN (logMsgs log).length (freshIter log none) = flatBatches none log := by
    rw [drainN_eq_take, futureList_fresh, List.take_of_length_le (le_of_eq hlen)]
  rw [hdrain]
  exact ⟨hperm, flatBatches_sorted none log hord hcov⟩

/-- C2 amended witness at a concrete two-chunk log. -/
theorem merge_iterator_ordered_drain_witness :
    (drainN (logMsgs twoChunkLog).length
      (freshIter twoChunkLog none)).Perm (logMsgs twoChunkLog) ∧
    timeSorted (drainN (logMsgs twoChunkLog).length
      (freshIter twoChunkLog none)) :=
  merge_iterator_ordered_drain twoChunkLog
    (by unfold orderedDisjoint twoChunkLog; decide)
    (by unfold rangesCover twoChunkLog; decide)
    (by unfold internallySorted twoChunkLog; decide)

/-! Correctness of the modelled Rust binary search on sorted keys, and the
exact-lookup property of `get_message_at_time`. -/

theorem sorted_getD_mono {xs : List Nat} (hs : List.Sorted (· ≤ ·) xs)
    {i j : Nat} (hij : i ≤ j) (hj : j < xs.length) :
    xs.getD i 0 ≤ xs.getD j 0 := by
  rcases Nat.eq_or_lt_of_le hij with rfl | hlt
  · exact Nat.le_refl _
  · have h := List.pairwise_iff_get.mp hs ⟨i, by omega⟩ ⟨j, hj⟩ hlt
    rw [List.getD_eq_getElem xs 0 (by omega : i < xs.length),
      List.getD_eq_getElem xs 0 hj]
    simpa using h

theorem rbsGo_bounds (xs : List Nat) (t : Nat) :
    ∀ (fuel base size : Nat), 1 ≤ size →
      base ≤ rbsGo xs t fuel base size ∧
      rbsGo xs t fuel base size < base + size := by
  intro fuel
  induction fuel with
  | zero =>
    intro base size hs
    constructor
    · exact Nat.le_refl _
    · simpa [rbsGo] using by omega
  | succ f ih =>
    intro base size hs
    by_cases h : 1 < size
    · have h1 : 1 ≤ size / 2 := by omega
      have h2 : size / 2 < size := by omega
      by_cases hc : t < xs.getD (base + size / 2) 0
      · have := ih base (size - size / 2) (by omega)
        simp only [rbsGo, h, if_true, hc]
        omega
      · have := ih (base + size / 2) (size - size / 2) (by omega)
        simp only [rbsGo, h, if_true, hc, if_false]
        omega
    · simp only [rbsGo, h, if_false]
      omega

theorem rbsGo_complete (xs : List Nat) (t : Nat)
    (hs : List.Sorted (· ≤ ·) xs) :
    ∀ (fuel base size : Nat), size ≤ fuel → 1 ≤ size →
      base + size ≤ xs.length →
      (∃ j, base ≤ j ∧ j < base + size ∧ xs.getD j 0 = t) →
      xs.getD (rbsGo xs t fuel base size) 0 = t := by
  intro fuel
  induction fuel with
  | zero =>
    intro base size hf h1
    omega
  | succ f ih =>
    rintro base size hf h1 hlen ⟨j, hj1, hj2, hjt⟩
    by_cases h : 1 < size
    · have hhalf1 : 1 ≤ size / 2 := by omega
      have hhalf2 : size / 2 < size := by omega
      have hmidlt : base + size / 2 < xs.length := by omega
      by_cases hc : t < xs.getD (base + size / 2) 0
      · simp only [rbsGo, h, if_true, hc]
        apply ih base (size - size / 2) (by omega) (by omega) (by omega)
        refine ⟨j, hj1, ?_, hjt⟩
        by_contra hge
        push_neg at hge
        have hmid : base + size / 2 ≤ j := by omega
        have hmono := sorted_getD_mono hs hmid (by omega)
        omega
      · simp only [rbsGo, h, if_true, hc, if_false]
        push_neg at hc
        by_cases hj : base + size / 2 ≤ j
        · exact ih (base + size / 2) (size - size / 2) (by omega) (by omega)
            (by omega) ⟨j, hj, by omega, hjt⟩
        · push_neg at hj
          have hmono := sorted_getD_mono hs (Nat.le_of_lt hj) hmidlt
          have hmidt : xs.getD (base + size / 2) 0 = t := by omega
          exact ih (base + size / 2) (size - size / 2) (by omega) (by omega)
            (by omega) ⟨base + size / 2, Nat.le_refl _, by omega, hmidt⟩
    · simp only [rbsGo, h, if_false]
      have : j = base := by omega
      rw [← this]
      exact hjt

theorem rustBinSearch_inl {xs : List Nat} {t i : Nat}
    (h : rustBinSearch xs t = Sum.inl i) :
    i < xs.length ∧ xs.getD i 0 = t := by
  unfold rustBinSearch at h
  by_cases hn : xs.length = 0
  · simp [hn] at h
  · simp only [hn, if_false] at h
    by_cases he : xs.getD (rbsGo xs t xs.length 0 xs.length) 0 = t
    · rw [if_pos he] at h
      have hb := rbsGo_bounds xs t xs.length 0 xs.length (by omega)
      obtain rfl : rbsGo xs t xs.length 0 xs.length = i := by
        simpa using h
      exact ⟨by omega, he⟩
    · rw [if_neg he] at h
      simp at h

theorem rustBinSearch_mem {xs : List Nat} {t : Nat}
    (hs : List.Sorted (· ≤ ·) xs) (hm : t ∈ xs) :
    ∃ i, rustBinSearch xs t = Sum.inl i := by
  have hn : xs.length ≠ 0 := by
    intro h
    rw [List.length_eq_zero] at h
    subst h
    simp at hm
  obtain ⟨j, hj, hjt⟩ := List.mem_iff_getElem.mp hm
  have hget : xs.getD (rbsGo xs t xs.length 0 xs.length) 0 = t := by
    apply rbsGo_complete xs t hs xs.length 0 xs.length (Nat.le_refl _)
      (by omega) (by omega)
    refine ⟨j, by omega, by omega, ?_⟩
    rw [List.getD_eq_getElem xs 0 hj]
    exact hjt
  refine ⟨rbsGo xs t xs.length 0 xs.length, ?_⟩
  unfold rustBinSearch
  rw [if_neg hn, if_pos hget]

theorem chunkEntries_sorted {c : Chunk} (ch : Nat)
    (h : List.Sorted msgLE c.msgs) :
    List.Sorted (· ≤ ·) (chunkEntries c ch) := by
  unfold chunkEntries chunkMsgsOn
  refine List.Pairwise.map Message.log_time (fun a b hab => hab) ?_
  exact h.sublist (List.filter_sublist c.msgs)

theorem mem_chunkEntries_of {c : Chunk} {m : Message} (hm : m ∈ c.msgs)
    (hch : m.ch = chv) : m.log_time ∈ chunkEntries c chv := by
  unfold chunkEntries chunkMsgsOn
  refine List.mem_map_of_mem Message.log_time ?_
  rw [List.mem_filter]
  exact ⟨hm, by simp [hch]⟩

theorem gmatCore_isSome {ch t : Nat} (log : List Chunk)
    (hsorted : ∀ c ∈ log, List.Sorted (· ≤ ·) (chunkEntries c ch))
    (hcov : ∀ c ∈ log, ∀ m ∈ c.msgs,
      c.startTime ≤ m.log_time ∧ m.log_time ≤ c.endTime) :
    (gmatCore ch t log).isSome ↔
      ∃ c ∈ log, ∃ m ∈ c.msgs, m.ch = ch ∧ m.log_time = t := by
  induction log with
  | nil => simp [gmatCore]
  | cons c rest ih =>
    have ihr := ih (fun d hd => hsorted d (List.mem_cons_of_mem c hd))
      (fun d hd => hcov d (List.mem_cons_of_mem c hd))
    by_cases hskip : t < c.startTime ∨ c.endTime < t
    · rw [gmatCore, if_pos hskip, ihr]
      constructor
      · rintro ⟨d, hd, hm⟩
        exact ⟨d, List.mem_cons_of_mem c hd, hm⟩
      · rintro ⟨d, hd, m, hm, hch, htt⟩
        rcases List.mem_cons.mp hd with rfl | hd1
        · have := hcov d (List.mem_cons_self d rest) m hm
          omega
        · exact ⟨d, hd1, m, hm, hch, htt⟩
    · rw [gmatCore, if_neg hskip]
      rcases hbs : rustBinSearch (chunkEntries c ch) t with i | i
      · obtain ⟨hlt, hget⟩ := rustBinSearch_inl hbs
        have hlen : (chunkEntries c ch).length = (chunkMsgsOn c ch).length := by
          simp [chunkEntries]
        have hidx : i < (chunkMsgsOn c ch).length := by omega
        have hmem : (chunkMsgsOn c ch)[i] ∈ chunkMsgsOn c ch :=
          List.getElem_mem hidx
        have hmem2 : (chunkMsgsOn c ch)[i] ∈ c.msgs ∧
            (((chunkMsgsOn c ch)[i]).ch == ch) = true :=
          List.mem_filter.mp hmem
        have htime : ((chunkMsgsOn c ch)[i]).log_time = t := by
          rw [List.getD_eq_getElem _ 0 hlt] at hget
          rw [← hget]
          unfold chunkEntries
          rw [List.getElem_map]
        simp only [hbs]
        constructor
        · intro _
          exact ⟨c, List.mem_cons_self c rest, (chunkMsgsOn c ch)[i], hmem2.1,
            by simpa using hmem2.2, htime⟩
        · intro _
          simp [List.getElem?_eq_getElem hidx]
      · simp only [hbs]
        rw [ihr]
        constructor
        · rintro ⟨d, hd, hm⟩
          exact ⟨d, List.mem_cons_of_mem c hd, hm⟩
        · rintro ⟨d, hd, m, hm, hch, htt⟩
          rcases List.mem_cons.mp hd with rfl | hd1
          · have hmem : t ∈ chunkEntries d ch := by
              rw [← htt]
              exact mem_chunkEntries_of hm hch
            obtain ⟨i1, hi1⟩ :=
              rustBinSearch_mem (hsorted d (List.mem_cons_self d rest)) hmem
            rw [hbs] at hi1
            cases hi1
          · exact ⟨d, hd1, m, hm, hch, htt⟩

/-- C8: assuming chunk index ranges cover their messages' times (with the
channel's message-index entries sorted ascending per chunk, as the format
guarantees by construction), `get_message_at_time ch t` returns a message
exactly when the log contains a message on channel `ch` with log_time
equal to `t`; otherwise it returns nothing.  The chunk's cross-channel
storage order is unconstrained. -/
theorem get_message_at_time_iff (s : IterState) (ch t : Nat)
    (hsorted : channelEntriesSorted s.log ch) (hcov : rangesCover s.log) :
    (get_message_at_time s (ch : Int) (t : Int)).1.isSome ↔
      ∃ c ∈ s.log, ∃ m ∈ c.msgs, m.ch = ch ∧ m.log_time = t := by
  unfold get_message_at_time
  have h1 : ¬ ((ch : Int) < 0) := by
    simp
  have h2 : ¬ ((t : Int) < 0) := by
    simp
  simp only [h1, if_false, h2, Int.toNat_natCast]
  exact gmatCore_isSome s.log hsorted hcov

/-- C8 witness: on an interleaved multi-channel chunk (whose storage order
is not globally time-sorted), channel 1 holds a message at exactly
time 25. -/
theorem get_message_at_time_iff_witness :
    (get_message_at_time (freshIter interleavedLog none) ((1 : Nat) : Int)
      ((25 : Nat) : Int)).1.isSome ↔
      ∃ c ∈ (freshIter interleavedLog none).log, ∃ m ∈ c.msgs,
        m.ch = 1 ∧ m.log_time = 25 :=
  get_message_at_time_iff (freshIter interleavedLog none) 1 25
    (by unfold channelEntriesSorted interleavedLog freshIter; decide)
    (by unfold rangesCover interleavedLog freshIter; decide)

/-! The replay tick: emitted messages and the logical clock. -/

theorem takeWhile_eq_filter_of_sorted {l : List Message}
    (hs : List.Sorted msgLE l) (target : Nat) :
    l.takeWhile (fun m => decide (m.log_time ≤ target)) =
      l.filter (fun m => decide (m.log_time ≤ target)) := by
  induction l with
  | nil => rfl
  | cons m rest ih =>
    by_cases h : m.log_time ≤ target
    · simp only [List.takeWhile_cons, List.filter_cons, decide_eq_true h,
        if_true, List.cons.injEq, true_and]
      exact ih hs.of_cons
    · simp only [List.takeWhile_cons, List.filter_cons,
        decide_eq_false h, if_false, Bool.false_eq_true]
      symm
      rw [List.filter_eq_nil_iff]
      intro x hx
      have hmx := List.rel_of_sorted_cons hs x hx
      unfold msgLE at hmx
      simp
      omega

theorem updateLoop_emits (looping : Bool) (t_end : Option Nat) (target : Nat)
    (hend : ∀ e, t_end = some e → target ≤ e) :
    ∀ (fut : List Message) (fuel : Nat) (it : IterState),
      futureList it = fut → fut.length < fuel →
      (updateLoop looping t_end none target fuel it).1 =
        fut.takeWhile (fun m => decide (m.log_time ≤ target)) := by
  intro fut
  induction fut with
  | nil =>
    intro fuel it hfut hlen
    rcases fuel with _ | f
    · omega
    · have hp := peek_message_fst it
      rw [hfut] at hp
      rcases hpm : peek_message it with ⟨p1, it1⟩
      rw [hpm] at hp
      simp only [List.head?_nil] at hp
      subst hp
      simp [updateLoop, hpm]
  | cons m rest ih =>
    intro fuel it hfut hlen
    rcases fuel with _ | f
    · simp at hlen
    · have hp := peek_message_fst it
      have hfut1 := peek_message_futureList it
      rw [hfut] at hp hfut1
      rcases hpm : peek_message it with ⟨p1, it1⟩
      rw [hpm] at hp hfut1
      simp only [List.head?_cons] at hp
      subst hp
      simp only at hfut1
      have hg1 := get_next_message_fst it1
      have hg2 := get_next_message_futureList it1
      rw [hfut1] at hg1 hg2
      rcases hgn : get_next_message it1 with ⟨g1, it2⟩
      rw [hgn] at hg1 hg2
      simp only [List.head?_cons] at hg1
      subst hg1
      simp only [List.tail_cons] at hg2
      have hrec : rest.length < f := by
        simpa using Nat.lt_of_succ_lt_succ hlen
      rcases t_end with _ | e
      · by_cases hle : m.log_time ≤ target
        · simp only [updateLoop, hpm, hgn]
          simp only [Bool.false_eq_true, if_false, hle, if_true]
          rw [ih f it2 hg2 hrec]
          rw [List.takeWhile_cons, if_pos (by simpa using hle)]
        · simp only [updateLoop, hpm]
          simp only [Bool.false_eq_true, if_false, hle]
          rw [List.takeWhile_cons, if_neg (by simpa using hle)]
      · by_cases hht : e < m.log_time
        · have hgt : ¬ m.log_time ≤ target := by
            have := hend e rfl
            omega
          simp only [updateLoop, hpm, decide_eq_true hht, if_true]
          rw [List.takeWhile_cons, if_neg (by simpa using hgt)]
        · by_cases hle : m.log_time ≤ target
          · simp only [updateLoop, hpm, hgn, decide_eq_false hht]
            simp only [Bool.false_eq_true, if_false, hle, if_true]
            rw [ih f it2 hg2 hrec]
            rw [List.takeWhile_cons, if_pos (by simpa using hle)]
          · simp only [updateLoop, hpm, decide_eq_false hht]
            simp only [Bool.false_eq_true, if_false, hle]
            rw [List.takeWhile_cons, if_neg (by simpa using hle)]

/-- C4: at speed 1 with no channel filter, a tick at wall clock `now` from a
running state anchored at (wall `w0`, log `t0`) has logical time
`t0 + (now - w0)` clamped to the end bound, and — provided every message
at or before the previous target `prevT` has already been consumed — emits
exactly the remaining messages with log_time in `(prevT, target]`, each
exactly once (a sublist of the stream), in non-decreasing log_time order;
the list is fully collected before any callback is invoked. -/
theorem replay_tick (rs : ReplayState) (now w0 t0 prevT : Nat) (it : IterState)
    (hrun : rs.running = true)
    (hrt : rs.start_real_time = some w0)
    (hlt : rs.start_log_time = some t0)
    (hspeed : rs.speed = 1)
    (hfil : rs.filter_channels = none)
    (hit : rs.iter = some it)
    (hsort : List.Sorted msgLE (futureList it))
    (hprev : ∀ m ∈ futureList it, prevT < m.log_time) :
    current_time_usec rs now =
      clampEndInt ((t0 : Int) + ((now - w0 : Nat) : Int)) rs.time_end ∧
    (update_replay rs now).1 =
      (futureList it).filter (fun m => decide (prevT < m.log_time ∧
        m.log_time ≤ clampEnd (t0 + (now - w0)) rs.time_end)) ∧
    timeSorted (update_replay rs now).1 ∧
    (update_replay rs now).1.Sublist (futureList it) := by
  have hfloorI : (((now - w0 : Nat) : ℚ) * rs.speed).floor =
      ((now - w0 : Nat) : Int) := by
    rw [hspeed, mul_one]
    rfl
  have hfloorP : (((now - w0 : Nat) : ℚ) * rs.speed).floor.toNat = now - w0 := by
    rw [hfloorI]
    rfl
  have hclock : current_time_usec rs now =
      clampEndInt ((t0 : Int) + ((now - w0 : Nat) : Int)) rs.time_end := by
    unfold current_time_usec
    rw [hlt, hrt]
    dsimp only
    rw [hfloorI]
    unfold clampEndInt
    rcases rs.time_end with _ | e
    · rfl
    · dsimp only
      rcases le_or_lt ((t0 : Int) + ((now - w0 : Nat) : Int)) (e : Int) with h | h
      · rw [if_neg (not_lt.mpr h), min_eq_left h]
      · rw [if_pos h, min_eq_right (le_of_lt h)]
  have hend : ∀ e, rs.time_end = some e →
      clampEnd (t0 + (now - w0)) rs.time_end ≤ e := by
    intro e he
    rw [he]
    unfold clampEnd
    exact min_le_right _ _
  have hemit : (update_replay rs now).1 =
      (futureList it).takeWhile (fun m =>
        decide (m.log_time ≤ clampEnd (t0 + (now - w0)) rs.time_end)) := by
    unfold update_replay
    rw [hrun]
    rw [if_neg (by simp)]
    rw [hrt, hlt]
    dsimp only
    rw [hit]
    dsimp only
    rw [hfil, hfloorP]
    exact updateLoop_emits rs.looping rs.time_end _ hend (futureList it)
      ((futureList it).length + 1) it rfl (by omega)
  have htf := takeWhile_eq_filter_of_sorted hsort
    (clampEnd (t0 + (now - w0)) rs.time_end)
  have hff : (futureList it).filter (fun m =>
        decide (m.log_time ≤ clampEnd (t0 + (now - w0)) rs.time_end)) =
      (futureList it).filter (fun m => decide (prevT < m.log_time ∧
        m.log_time ≤ clampEnd (t0 + (now - w0)) rs.time_end)) := by
    apply List.filter_congr
    intro x hx
    have := hprev x hx
    simp [this]
  refine ⟨hclock, ?_, ?_, ?_⟩
  · rw [hemit, htf, hff]
  · rw [hemit, htf]
    exact hsort.filter _
  · rw [hemit, htf]
    exact List.filter_sublist _

/-- C4 witness: a concrete running replay over `twoChunkLog`, anchored at
log 10 / wall 1000, ticked at wall 1016 (so the target is 26) having
previously consumed nothing with log_time above 9. -/
theorem replay_tick_witness :
    current_time_usec replayReady 1016 =
      clampEndInt (((10 : Nat) : Int) + ((1016 - 1000 : Nat) : Int))
        replayReady.time_end ∧
    (update_replay replayReady 1016).1 =
      (futureList (freshIter twoChunkLog none)).filter (fun m =>
        decide (9 < m.log_time ∧
          m.log_time ≤ clampEnd (10 + (1016 - 1000)) replayReady.time_end)) ∧
    timeSorted (update_replay replayReady 1016).1 ∧
    (update_replay replayReady 1016).1.Sublist
      (futureList (freshIter twoChunkLog none)) :=
  replay_tick replayReady 1016 1000 10 9 (freshIter twoChunkLog none)
    rfl rfl rfl rfl rfl rfl
    (by decide)
    (by decide)

end MCAP
